import Mathlib

/-!
Verification of the four-lepton candidate finder and Z-pair selector of the
PHY307 hands-on exercise notebook (`Exercise.ipynb`).

The algorithmic core of the notebook is the numba-compiled function
`find_4lep`, which, per event, enumerates all tuples `(i0, i1, i2, i3)` of
lepton indices such that `i0 < i1`, `i2 < i3`, the four indices are pairwise
distinct, and each of the two index pairs has balanced electric charge.  The
caller `RunSamples` then, per event, selects the candidate whose first-pair
invariant mass is closest to the nominal Z mass 91.1876 GeV (via `ak.argmin`,
which takes the first index attaining the minimum), labelling the first pair
Z1 and the second Z2.

We model a lepton event by its list of integer charges (the only field the
finder reads), and the invariant-mass computation of the selector by an
arbitrary rational-valued function of an index pair (the selector only
compares absolute differences of masses; the floating-point four-momentum
arithmetic is modelled by exact rationals).

The nested loops of `find_4lep` are rendered one definition per loop level:
`Python`'s `range(a, b)` is `List.range' a (b - a)`, `lep_charge[i]` is
`charge.getD i 0` (every access in the loops is in bounds), the guard
`len({i0, i1, i2, i3}) < 4` is the failure of `[i0, i1, i2, i3].Nodup`, and
a `continue` is the empty contribution `[]`.
-/

/-- A candidate: the index tuple `(i0, i1, i2, i3)` built by `find_4lep`. -/
abbrev Cand : Type := Nat × Nat × Nat × Nat

/-- Body of the innermost loop of `find_4lep`: skip unless the four indices
are pairwise distinct (`if len({i0, i1, i2, i3}) < 4: continue`) and the
second pair is charge-balanced (`if lep_charge[i2] + lep_charge[i3] != 0:
continue`); otherwise emit the tuple `(i0, i1, i2, i3)`. -/
def innerBody (charge : List Int) (i0 i1 i2 i3 : Nat) : List Cand :=
  if ¬ ([i0, i1, i2, i3].Nodup) then []
  else if charge.getD i2 0 + charge.getD i3 0 ≠ 0 then []
  else [(i0, i1, i2, i3)]

/-- The `for i3 in range(i2 + 1, nlep)` loop of `find_4lep`. -/
def loopI3 (charge : List Int) (i0 i1 i2 : Nat) : List Cand :=
  (List.range' (i2 + 1) (charge.length - (i2 + 1))).flatMap (innerBody charge i0 i1 i2)

/-- The `for i2 in range(nlep)` loop of `find_4lep`, guarded by the skip of
first pairs that are not charge-balanced
(`if lep_charge[i0] + lep_charge[i1] != 0: continue`). -/
def loopI2 (charge : List Int) (i0 i1 : Nat) : List Cand :=
  if charge.getD i0 0 + charge.getD i1 0 ≠ 0 then []
  else (List.range charge.length).flatMap (loopI3 charge i0 i1)

/-- The `for i1 in range(i0 + 1, nlep)` loop of `find_4lep`. -/
def loopI1 (charge : List Int) (i0 : Nat) : List Cand :=
  (List.range' (i0 + 1) (charge.length - (i0 + 1))).flatMap (loopI2 charge i0)

/-- Per-event core of `find_4lep`: the outermost `for i0 in range(nlep)`
loop, emitting candidates in loop order. -/
def findCandidates (charge : List Int) : List Cand :=
  (List.range charge.length).flatMap (loopI1 charge)

/-- `find_4lep` over a batch of events: the outer
`for leptons, lep_charge in zip(events_leptons, events_leptons.charge)` loop;
the awkward `ArrayBuilder`'s `begin_list`/`end_list` nesting is modelled by
the returned list of per-event candidate lists. -/
def find_4lep (events : List (List Int)) : List (List Cand) :=
  events.map findCandidates

/-- The nominal Z-boson mass used in `RunSamples`: `91.1876` (GeV). -/
def nominalZMass : ℚ := 91.1876

/-- Invariant mass of the first (Z1) pair of a candidate, given the pair-mass
function `m` of the event (`fourmuon.z1.p4.mass` for `p4 = lep1 + lep2`). -/
def z1mass (m : Nat → Nat → ℚ) (c : Cand) : ℚ := m c.1 c.2.1

/-- Invariant mass of the second (Z2) pair of a candidate
(`fourmuon.z2.p4.mass`). -/
def z2mass (m : Nat → Nat → ℚ) (c : Cand) : ℚ := m c.2.2.1 c.2.2.2

/-- The quantity minimised by `ak.argmin(abs(fourmuon.z1.p4.mass - 91.1876))`:
the absolute distance of the candidate's Z1 mass from the nominal Z mass. -/
def zdist (m : Nat → Nat → ℚ) (c : Cand) : ℚ := |z1mass m c - nominalZMass|

/-- Per-event selection `fourmuon[ak.singletons(ak.argmin(...))]` followed by
`ak.flatten`: on an empty candidate list `argmin` yields the absence value
(`none`); otherwise the first candidate of minimum `zdist` is kept
(`ak.argmin` returns the first index attaining the minimum). -/
def selectBest (m : Nat → Nat → ℚ) : List Cand → Option Cand
  | [] => none
  | c :: cs => some (cs.foldl (fun best x => if zdist m x < zdist m best then x else best) c)

/-- The batched selection: per event, the best candidate if any; events with
no candidate disappear from the flattened output (`ak.flatten` drops the
empty sublists produced by `ak.singletons` of a missing `argmin`). -/
def selectEvents (m : Nat → Nat → ℚ) (events : List (List Int)) : List Cand :=
  events.filterMap (fun ch => selectBest m (findCandidates ch))

/-- Swapping the two pairs of a candidate: `(i0,i1,i2,i3) ↦ (i2,i3,i0,i1)`. -/
def swapPairs (c : Cand) : Cand := (c.2.2.1, c.2.2.2, c.1, c.2.1)

/-- Strict lexicographic order on candidate tuples `(i0, i1, i2, i3)`. -/
def candLT (a b : Cand) : Prop :=
  a.1 < b.1 ∨ (a.1 = b.1 ∧ (a.2.1 < b.2.1 ∨ (a.2.1 = b.2.1 ∧
    (a.2.2.1 < b.2.2.1 ∨ (a.2.2.1 = b.2.2.1 ∧ a.2.2.2 < b.2.2.2)))))

/-- Distinctness of a four-element list spelt out as the six inequalities
checked by `len({i0, i1, i2, i3}) < 4`. -/
lemma nodup_four_iff {a b c d : Nat} :
    [a, b, c, d].Nodup ↔ a ≠ b ∧ a ≠ c ∧ a ≠ d ∧ b ≠ c ∧ b ≠ d ∧ c ≠ d := by
  simp only [List.nodup_cons, List.mem_cons, List.mem_singleton, List.not_mem_nil,
    not_or, List.nodup_nil, and_true]
  tauto

/-- Membership in a conditional-skip branch of a loop body: an element is
in `if p then [] else l` exactly when the guard fails and it is in `l`. -/
lemma mem_ite_nil {α : Type} {p : Prop} [Decidable p] {l : List α} {a : α} :
    (a ∈ if p then [] else l) ↔ ¬ p ∧ a ∈ l := by
  split_ifs with h <;> simp [h]

/-- Membership characterisation of the finder's output: `(i0, i1, i2, i3)` is
emitted iff the loop bounds, the distinctness check and both charge checks
hold. -/
lemma mem_findCandidates {ch : List Int} {i0 i1 i2 i3 : Nat} :
    (i0, i1, i2, i3) ∈ findCandidates ch ↔
      i0 < i1 ∧ i1 < ch.length ∧ i2 < i3 ∧ i3 < ch.length ∧
      [i0, i1, i2, i3].Nodup ∧
      ch.getD i0 0 + ch.getD i1 0 = 0 ∧ ch.getD i2 0 + ch.getD i3 0 = 0 := by
  simp only [findCandidates, loopI1, loopI2, loopI3, innerBody, List.mem_flatMap,
    List.mem_range, List.mem_range'_1, mem_ite_nil, List.mem_singleton, ne_eq,
    not_not, Prod.mk.injEq]
  constructor
  · rintro ⟨j0, hj0, j1, ⟨hj1a, hj1b⟩, hc1, j2, hj2, j3, ⟨hj3a, hj3b⟩, hnd, hc2,
      rfl, rfl, rfl, rfl⟩
    exact ⟨by omega, by omega, by omega, by omega, hnd, hc1, hc2⟩
  · rintro ⟨h01, h1n, h23, h3n, hnd, hc1, hc2⟩
    exact ⟨i0, by omega, i1, ⟨by omega, by omega⟩, hc1, i2, by omega, i3,
      ⟨by omega, by omega⟩, hnd, hc2, rfl, rfl, rfl, rfl⟩

/-- Pair-swap closure of the finder's output: the membership conditions of
`mem_findCandidates` are symmetric in the two pairs, because the second-pair
loop ranges over all of `range(nlep)` rather than starting after the first
pair. -/
lemma swapPairs_mem_findCandidates {ch : List Int} {c : Cand}
    (h : c ∈ findCandidates ch) : swapPairs c ∈ findCandidates ch := by
  obtain ⟨i0, i1, i2, i3⟩ := c
  rw [mem_findCandidates] at h
  obtain ⟨h01, h1n, h23, h3n, hnd, hc1, hc2⟩ := h
  show (i2, i3, i0, i1) ∈ findCandidates ch
  rw [mem_findCandidates]
  refine ⟨h23, h3n, h01, h1n, ?_, hc2, hc1⟩
  rw [nodup_four_iff] at hnd ⊢
  omega

/-- `Pairwise` transfer through `flatMap`: inner lists pairwise, and all
elements of earlier inner lists related to all elements of later ones. -/
lemma pairwise_flatMap {α β : Type} {R : β → β → Prop} {l : List α} {f : α → List β}
    (h1 : ∀ a ∈ l, (f a).Pairwise R)
    (h2 : l.Pairwise (fun a b => ∀ x ∈ f a, ∀ y ∈ f b, R x y)) :
    (l.flatMap f).Pairwise R := by
  rw [List.flatMap_def, List.pairwise_flatten]
  constructor
  · intro l' hl'
    obtain ⟨a, ha, rfl⟩ := List.mem_map.mp hl'
    exact h1 a ha
  · rw [List.pairwise_map]
    exact h2

/-- Every element the innermost body emits is the tuple of its loop indices. -/
lemma eq_of_mem_innerBody {ch : List Int} {i0 i1 i2 i3 : Nat} {x : Cand}
    (hx : x ∈ innerBody ch i0 i1 i2 i3) : x = (i0, i1, i2, i3) := by
  unfold innerBody at hx
  split_ifs at hx <;> simp_all

/-- Every element of the `i3` loop carries its `i0`, `i1`, `i2` indices. -/
lemma eq_of_mem_loopI3 {ch : List Int} {i0 i1 i2 : Nat} {x : Cand}
    (hx : x ∈ loopI3 ch i0 i1 i2) :
    x.1 = i0 ∧ x.2.1 = i1 ∧ x.2.2.1 = i2 := by
  obtain ⟨i3, _, hx⟩ := List.mem_flatMap.mp hx
  rw [eq_of_mem_innerBody hx]
  exact ⟨rfl, rfl, rfl⟩

/-- Every element of the `i2` loop carries its `i0`, `i1` indices. -/
lemma eq_of_mem_loopI2 {ch : List Int} {i0 i1 : Nat} {x : Cand}
    (hx : x ∈ loopI2 ch i0 i1) : x.1 = i0 ∧ x.2.1 = i1 := by
  unfold loopI2 at hx
  rw [mem_ite_nil] at hx
  obtain ⟨i2, _, hx⟩ := List.mem_flatMap.mp hx.2
  exact ⟨(eq_of_mem_loopI3 hx).1, (eq_of_mem_loopI3 hx).2.1⟩

/-- Every element of the `i1` loop carries its `i0` index. -/
lemma eq_of_mem_loopI1 {ch : List Int} {i0 : Nat} {x : Cand}
    (hx : x ∈ loopI1 ch i0) : x.1 = i0 := by
  obtain ⟨i1, _, hx⟩ := List.mem_flatMap.mp hx
  exact (eq_of_mem_loopI2 hx).1

/-- The innermost body is trivially sorted (it has at most one element). -/
lemma innerBody_pairwise {ch : List Int} {i0 i1 i2 i3 : Nat} :
    (innerBody ch i0 i1 i2 i3).Pairwise candLT := by
  unfold innerBody
  split_ifs <;> simp

/-- The `i3` loop emits tuples in strictly increasing lexicographic order. -/
lemma loopI3_pairwise {ch : List Int} {i0 i1 i2 : Nat} :
    (loopI3 ch i0 i1 i2).Pairwise candLT := by
  refine pairwise_flatMap (fun _ _ => innerBody_pairwise) ?_
  refine (List.pairwise_lt_range' _ _).imp ?_
  intro a b hab x hx y hy
  rw [eq_of_mem_innerBody hx, eq_of_mem_innerBody hy]
  exact Or.inr ⟨rfl, Or.inr ⟨rfl, Or.inr ⟨rfl, hab⟩⟩⟩

/-- The `i2` loop emits tuples in strictly increasing lexicographic order. -/
lemma loopI2_pairwise {ch : List Int} {i0 i1 : Nat} :
    (loopI2 ch i0 i1).Pairwise candLT := by
  unfold loopI2
  split_ifs
  · exact List.Pairwise.nil
  refine pairwise_flatMap (fun _ _ => loopI3_pairwise) ?_
  refine (List.pairwise_lt_range _).imp ?_
  intro a b hab x hx y hy
  obtain ⟨hx0, hx1, hx2⟩ := eq_of_mem_loopI3 hx
  obtain ⟨hy0, hy1, hy2⟩ := eq_of_mem_loopI3 hy
  exact Or.inr ⟨hx0.trans hy0.symm, Or.inr ⟨hx1.trans hy1.symm,
    Or.inl (by rw [hx2, hy2]; exact hab)⟩⟩

/-- The `i1` loop emits tuples in strictly increasing lexicographic order. -/
lemma loopI1_pairwise {ch : List Int} {i0 : Nat} :
    (loopI1 ch i0).Pairwise candLT := by
  refine pairwise_flatMap (fun _ _ => loopI2_pairwise) ?_
  refine (List.pairwise_lt_range' _ _).imp ?_
  intro a b hab x hx y hy
  obtain ⟨hx0, hx1⟩ := eq_of_mem_loopI2 hx
  obtain ⟨hy0, hy1⟩ := eq_of_mem_loopI2 hy
  exact Or.inr ⟨hx0.trans hy0.symm, Or.inl (by rw [hx1, hy1]; exact hab)⟩

/-- The finder's output is strictly increasing in lexicographic order. -/
lemma findCandidates_pairwise (ch : List Int) :
    (findCandidates ch).Pairwise candLT := by
  refine pairwise_flatMap (fun _ _ => loopI1_pairwise) ?_
  refine (List.pairwise_lt_range _).imp ?_
  intro a b hab x hx y hy
  have hx0 := eq_of_mem_loopI1 hx
  have hy0 := eq_of_mem_loopI1 hy
  exact Or.inl (by rw [hx0, hy0]; exact hab)

/-- Strict lexicographic order is irreflexive, hence implies inequality. -/
lemma ne_of_candLT {a b : Cand} (h : candLT a b) : a ≠ b := by
  rintro rfl
  unfold candLT at h
  rcases h with h | ⟨_, h | ⟨_, h | ⟨_, h⟩⟩⟩ <;> omega

/-- A loop whose every iteration contributes at most `B` elements contributes
at most `length * B` elements in total. -/
lemma length_flatMap_le {α β : Type} (l : List α) (f : α → List β) (B : Nat)
    (h : ∀ a ∈ l, (f a).length ≤ B) : (l.flatMap f).length ≤ l.length * B := by
  induction l with
  | nil => simp
  | cons a t ih =>
    rw [List.flatMap_cons, List.length_append, List.length_cons, Nat.succ_mul]
    have h1 := h a (List.mem_cons_self a t)
    have h2 := ih (fun x hx => h x (List.mem_cons_of_mem a hx))
    linarith

/-- The innermost loop body emits at most one candidate per iteration. -/
lemma innerBody_length_le {ch : List Int} {i0 i1 i2 i3 : Nat} :
    (innerBody ch i0 i1 i2 i3).length ≤ 1 := by
  unfold innerBody
  split_ifs <;> simp

/-- The `i3` loop emits at most `nlep` candidates. -/
lemma loopI3_length_le {ch : List Int} {i0 i1 i2 : Nat} :
    (loopI3 ch i0 i1 i2).length ≤ ch.length := by
  have h := length_flatMap_le (List.range' (i2 + 1) (ch.length - (i2 + 1)))
    (innerBody ch i0 i1 i2) 1 (fun a _ => innerBody_length_le)
  rw [List.length_range', Nat.mul_one] at h
  exact h.trans (by omega)

/-- The `i2` loop emits at most `nlep ^ 2` candidates. -/
lemma loopI2_length_le {ch : List Int} {i0 i1 : Nat} :
    (loopI2 ch i0 i1).length ≤ ch.length * ch.length := by
  unfold loopI2
  split_ifs
  · simp
  · have h := length_flatMap_le (List.range ch.length) (loopI3 ch i0 i1) ch.length
      (fun a _ => loopI3_length_le)
    rw [List.length_range] at h
    exact h

/-- The `i1` loop emits at most `nlep ^ 3` candidates. -/
lemma loopI1_length_le {ch : List Int} {i0 : Nat} :
    (loopI1 ch i0).length ≤ ch.length * (ch.length * ch.length) := by
  have h := length_flatMap_le (List.range' (i0 + 1) (ch.length - (i0 + 1)))
    (loopI2 ch i0) (ch.length * ch.length) (fun a _ => loopI2_length_le)
  rw [List.length_range'] at h
  exact h.trans (Nat.mul_le_mul_right _ (by omega))

/-- The finder emits at most `nlep ^ 4` candidates: every iteration of the
four nested loops contributes at most one tuple. -/
lemma findCandidates_length_le (ch : List Int) :
    (findCandidates ch).length ≤ ch.length ^ 4 := by
  have h := length_flatMap_le (List.range ch.length) (loopI1 ch)
    (ch.length * (ch.length * ch.length)) (fun a _ => loopI1_length_le)
  rw [List.length_range] at h
  calc (findCandidates ch).length
      ≤ ch.length * (ch.length * (ch.length * ch.length)) := h
    _ = ch.length ^ 4 := by ring

/-- The running best of the selection fold is the seed or one of the list's
elements. -/
lemma foldl_best_eq_or_mem (m : Nat → Nat → ℚ) (b : Cand) (l : List Cand) :
    l.foldl (fun best x => if zdist m x < zdist m best then x else best) b = b ∨
    l.foldl (fun best x => if zdist m x < zdist m best then x else best) b ∈ l := by
  induction l generalizing b with
  | nil => exact Or.inl rfl
  | cons c cs ih =>
    rw [List.foldl_cons]
    rcases ih (if zdist m c < zdist m b then c else b) with h | h
    · rw [h]
      split_ifs
      · exact Or.inr (List.mem_cons_self c cs)
      · exact Or.inl rfl
    · exact Or.inr (List.mem_cons_of_mem c h)

/-- The result of the selection fold has minimal `zdist` among the seed and
the list's elements. -/
lemma foldl_best_le (m : Nat → Nat → ℚ) (b : Cand) (l : List Cand) :
    zdist m (l.foldl (fun best x => if zdist m x < zdist m best then x else best) b) ≤
      zdist m b ∧
    ∀ x ∈ l,
      zdist m (l.foldl (fun best x => if zdist m x < zdist m best then x else best) b) ≤
        zdist m x := by
  induction l generalizing b with
  | nil => exact ⟨le_refl _, by simp⟩
  | cons c cs ih =>
    rw [List.foldl_cons]
    obtain ⟨h1, h2⟩ := ih (if zdist m c < zdist m b then c else b)
    constructor
    · refine h1.trans ?_
      split_ifs with hc
      · exact le_of_lt hc
      · exact le_refl _
    · intro x hx
      rcases List.mem_cons.mp hx with rfl | hx
      · refine h1.trans ?_
        split_ifs with hc
        · exact le_refl _
        · exact not_lt.mp hc
      · exact h2 x hx

/-- What the selector returns: a member of the candidate list of minimal
`zdist` (the first such member, matching `ak.argmin`). -/
lemma selectBest_spec {m : Nat → Nat → ℚ} {l : List Cand} {c : Cand}
    (h : selectBest m l = some c) :
    c ∈ l ∧ ∀ x ∈ l, zdist m c ≤ zdist m x := by
  match l, h with
  | c0 :: cs, h =>
    simp only [selectBest, Option.some.injEq] at h
    subst h
    constructor
    · rcases foldl_best_eq_or_mem m c0 cs with h | h
      · rw [h]; exact List.mem_cons_self c0 cs
      · exact List.mem_cons_of_mem c0 h
    · intro x hx
      obtain ⟨h1, h2⟩ := foldl_best_le m c0 cs
      rcases List.mem_cons.mp hx with rfl | hx
      · exact h1
      · exact h2 x hx

/-- The selector returns a value exactly on non-empty candidate lists. -/
lemma selectBest_isSome (m : Nat → Nat → ℚ) {l : List Cand} (h : l ≠ []) :
    (selectBest m l).isSome := by
  match l, h with
  | c :: cs, _ => rfl

/-- A list of charges has at most `length` many `+1`s and `-1`s combined. -/
lemma count_pm_le (l : List Int) : l.count 1 + l.count (-1) ≤ l.length := by
  induction l with
  | nil => simp
  | cons a t ih =>
    simp only [List.count_cons, List.length_cons, beq_iff_eq]
    split_ifs <;> omega

/-- When the `+1`s and `-1`s exhaust the list, every charge is `+1` or
`-1`. -/
lemma all_pm_of_count (l : List Int) (h : l.count 1 + l.count (-1) = l.length) :
    ∀ x ∈ l, x = 1 ∨ x = -1 := by
  induction l with
  | nil => simp
  | cons a t ih =>
    simp only [List.count_cons, List.length_cons, beq_iff_eq] at h
    have ht := count_pm_le t
    intro x hx
    rcases List.mem_cons.mp hx with rfl | hx
    · by_contra hc
      push_neg at hc
      obtain ⟨h1, h2⟩ := hc
      rw [if_neg h1, if_neg h2] at h
      omega
    · refine ih ?_ x hx
      split_ifs at h <;> omega

/-- C1: every candidate `(i0, i1, i2, i3)` returned by the Candidate Finder
has charge-balanced pairs (`charge(i0) + charge(i1) = 0` and
`charge(i2) + charge(i3) = 0`), pairwise-distinct indices all below the
lepton count, and `i0 < i1`, `i2 < i3`. -/
theorem c1_candidate_invariants (ch : List Int) (i0 i1 i2 i3 : Nat)
    (h : (i0, i1, i2, i3) ∈ findCandidates ch) :
    ch.getD i0 0 + ch.getD i1 0 = 0 ∧ ch.getD i2 0 + ch.getD i3 0 = 0 ∧
    (i0 ≠ i1 ∧ i0 ≠ i2 ∧ i0 ≠ i3 ∧ i1 ≠ i2 ∧ i1 ≠ i3 ∧ i2 ≠ i3) ∧
    (i0 < ch.length ∧ i1 < ch.length ∧ i2 < ch.length ∧ i3 < ch.length) ∧
    i0 < i1 ∧ i2 < i3 := by
  rw [mem_findCandidates] at h
  obtain ⟨h01, h1n, h23, h3n, hnd, hc1, hc2⟩ := h
  rw [nodup_four_iff] at hnd
  exact ⟨hc1, hc2, hnd, ⟨by omega, h1n, by omega, h3n⟩, h01, h23⟩

/-- Witness for C1: the candidate `(0, 1, 2, 3)` of the event with charges
`[+1, -1, +1, -1]`. -/
theorem c1_candidate_invariants_witness :
    (0, 1, 2, 3) ∈ findCandidates [1, -1, 1, -1] ∧
    ([1, -1, 1, -1] : List Int).getD 0 0 + ([1, -1, 1, -1] : List Int).getD 1 0 = 0 ∧
    ([1, -1, 1, -1] : List Int).getD 2 0 + ([1, -1, 1, -1] : List Int).getD 3 0 = 0 ∧
    ((0 : Nat) ≠ 1 ∧ (0 : Nat) ≠ 2 ∧ (0 : Nat) ≠ 3 ∧ (1 : Nat) ≠ 2 ∧
      (1 : Nat) ≠ 3 ∧ (2 : Nat) ≠ 3) ∧
    ((0 : Nat) < ([1, -1, 1, -1] : List Int).length ∧
      1 < ([1, -1, 1, -1] : List Int).length ∧
      2 < ([1, -1, 1, -1] : List Int).length ∧
      3 < ([1, -1, 1, -1] : List Int).length) ∧
    (0 : Nat) < 1 ∧ (2 : Nat) < 3 :=
  ⟨by decide, c1_candidate_invariants [1, -1, 1, -1] 0 1 2 3 (by decide)⟩

/-- C2: for every event with a non-empty candidate list, the selector
returns (the first of) the candidates whose Z1 mass has minimum absolute
difference from 91.1876 among all candidates of the event, and in the
returned assignment the Z1 pair's mass is at least as close to 91.1876 as
the Z2 pair's mass. -/
theorem c2_selector_minimal_z1 (ch : List Int) (m : Nat → Nat → ℚ)
    (hne : findCandidates ch ≠ []) :
    ∃ c, selectBest m (findCandidates ch) = some c ∧ c ∈ findCandidates ch ∧
      (∀ x ∈ findCandidates ch, zdist m c ≤ zdist m x) ∧
      |z1mass m c - nominalZMass| ≤ |z2mass m c - nominalZMass| := by
  have hs := selectBest_isSome m hne
  obtain ⟨c, hc⟩ := Option.isSome_iff_exists.mp hs
  obtain ⟨hmem, hmin⟩ := selectBest_spec hc
  refine ⟨c, hc, hmem, hmin, ?_⟩
  have hswap := swapPairs_mem_findCandidates hmem
  have hle := hmin _ hswap
  simpa [zdist, z1mass, z2mass, swapPairs] using hle

/-- Witness for C2: the event with charges `[+1, -1, +1, -1]` and the
pair-mass function `m i j = i + j`. -/
theorem c2_selector_minimal_z1_witness :
    findCandidates [1, -1, 1, -1] ≠ [] ∧
    ∃ c, selectBest (fun i j => (i + j : ℚ)) (findCandidates [1, -1, 1, -1]) = some c ∧
      c ∈ findCandidates [1, -1, 1, -1] ∧
      (∀ x ∈ findCandidates [1, -1, 1, -1],
        zdist (fun i j => (i + j : ℚ)) c ≤ zdist (fun i j => (i + j : ℚ)) x) ∧
      |z1mass (fun i j => (i + j : ℚ)) c - nominalZMass| ≤
        |z2mass (fun i j => (i + j : ℚ)) c - nominalZMass| :=
  ⟨by decide, c2_selector_minimal_z1 [1, -1, 1, -1] (fun i j => (i + j : ℚ)) (by decide)⟩

/-- C3 counterexample: for charges `[+1, -1, +1, -1]` the finder does NOT
produce exactly the two candidates `(0, 1, 2, 3)` and `(0, 3, 1, 2)`: it also
emits `(1, 2, 0, 3)` (and `(2, 3, 0, 1)`), because the second-pair loop
ranges over all indices from 0. -/
theorem c3_two_candidates_counterexample :
    findCandidates [1, -1, 1, -1] ≠ [(0, 1, 2, 3), (0, 3, 1, 2)] ∧
    (1, 2, 0, 3) ∈ findCandidates [1, -1, 1, -1] := by decide

/-- C3 amended: for an event of exactly 4 leptons with charges
`[+1, -1, +1, -1]` at indices `[0, 1, 2, 3]`, the Candidate Finder produces
exactly four candidates, in this order:
`(0, 1, 2, 3)`, `(0, 3, 1, 2)`, `(1, 2, 0, 3)`, `(2, 3, 0, 1)`. -/
theorem c3_four_candidates :
    findCandidates [1, -1, 1, -1] =
      [(0, 1, 2, 3), (0, 3, 1, 2), (1, 2, 0, 3), (2, 3, 0, 1)] := by decide

/-- C4: the finder returns the empty sequence on every input with fewer than
4 leptons, and on every input in which no two (distinct) leptons have
charges summing to zero. -/
theorem c4_degenerate_empty (ch : List Int)
    (h : ch.length < 4 ∨ ∀ i, i < ch.length → ∀ j, j < ch.length → i ≠ j →
      ch.getD i 0 + ch.getD j 0 ≠ 0) :
    findCandidates ch = [] := by
  rw [List.eq_nil_iff_forall_not_mem]
  rintro ⟨i0, i1, i2, i3⟩ hc
  rw [mem_findCandidates] at hc
  obtain ⟨h01, h1n, h23, h3n, hnd, hc1, hc2⟩ := hc
  rcases h with h | h
  · have hcard : ([i0, i1, i2, i3].toFinset).card = 4 := by
      rw [List.toFinset_card_of_nodup hnd]
      rfl
    have hsub : ([i0, i1, i2, i3].toFinset) ⊆ Finset.range ch.length := by
      intro x hx
      rw [List.mem_toFinset] at hx
      rw [Finset.mem_range]
      simp only [List.mem_cons, List.not_mem_nil, or_false] at hx
      rcases hx with rfl | rfl | rfl | rfl <;> omega
    have hle := Finset.card_le_card hsub
    rw [hcard, Finset.card_range] at hle
    omega
  · exact h i0 (by omega) i1 (by omega) (by omega) hc1

/-- Witness for C4: four leptons all of charge `+1` (no balanced pair), and
a two-lepton event (fewer than 4 leptons). -/
theorem c4_degenerate_empty_witness :
    findCandidates [1, 1, 1, 1] = [] ∧ findCandidates [1, -1] = [] :=
  ⟨c4_degenerate_empty [1, 1, 1, 1] (Or.inr (by decide)),
    c4_degenerate_empty [1, -1] (Or.inl (by decide))⟩

/-- C5: for every input, no two candidates in the finder's output are
identical tuples: the output list has no duplicates (and since each pair is
emitted with its indices in increasing order, equal splits of the same four
indices coincide as tuples). -/
theorem c5_no_duplicates (ch : List Int) : (findCandidates ch).Nodup :=
  (findCandidates_pairwise ch).imp (fun hab => ne_of_candLT hab)

/-- C6: the finder is a pure function of its input — two invocations on the
same list give identical output — and its output is sorted in (strictly
increasing) lexicographic order on `(i0, i1, i2, i3)`. -/
theorem c6_deterministic_sorted (ch : List Int) :
    findCandidates ch = findCandidates ch ∧
    (findCandidates ch).Pairwise candLT :=
  ⟨rfl, findCandidates_pairwise ch⟩

/-- C7: on an event whose candidate list is empty the selector returns the
absence value `none` rather than failing, and such an event contributes no
assignment to the flattened downstream output. -/
theorem c7_empty_absence (m : Nat → Nat → ℚ) (ch : List Int)
    (rest : List (List Int)) (h : findCandidates ch = []) :
    selectBest m (findCandidates ch) = none ∧
    selectEvents m (ch :: rest) = selectEvents m rest := by
  constructor
  · rw [h]
    rfl
  · simp [selectEvents, List.filterMap_cons, h, selectBest]

/-- Witness for C7: the all-positive event `[1, 1, 1, 1]` followed by a
well-formed event. -/
theorem c7_empty_absence_witness :
    findCandidates [1, 1, 1, 1] = [] ∧
    selectBest (fun _ _ => (0 : ℚ)) (findCandidates [1, 1, 1, 1]) = none ∧
    selectEvents (fun _ _ => (0 : ℚ)) [[1, 1, 1, 1], [1, -1, 1, -1]] =
      selectEvents (fun _ _ => (0 : ℚ)) [[1, -1, 1, -1]] :=
  ⟨by decide, c7_empty_absence (fun _ _ => (0 : ℚ)) [1, 1, 1, 1] [[1, -1, 1, -1]]
    (by decide)⟩

/-- C8: the finder is total: it is a function defined on every charge list,
and its output is bounded by the `N^4` iterations of the nested loops. -/
theorem c8_total_bounded (ch : List Int) :
    (findCandidates ch).length ≤ ch.length ^ 4 :=
  findCandidates_length_le ch

/-- C9: the finder's output is closed under swapping the two pairs: whenever
`(i0, i1, i2, i3)` is emitted, `(i2, i3, i0, i1)` is emitted for the same
event, because the second-pair loop ranges over all indices from 0. -/
theorem c9_pair_swap_closure (ch : List Int) (i0 i1 i2 i3 : Nat)
    (h : (i0, i1, i2, i3) ∈ findCandidates ch) :
    (i2, i3, i0, i1) ∈ findCandidates ch :=
  swapPairs_mem_findCandidates h

/-- Witness for C9: `(0, 1, 2, 3)` and its pair-swap `(2, 3, 0, 1)` for the
event with charges `[+1, -1, +1, -1]`. -/
theorem c9_pair_swap_closure_witness :
    (0, 1, 2, 3) ∈ findCandidates [1, -1, 1, -1] ∧
    (2, 3, 0, 1) ∈ findCandidates [1, -1, 1, -1] :=
  ⟨by decide, c9_pair_swap_closure [1, -1, 1, -1] 0 1 2 3 (by decide)⟩

/-- C10: under the precondition `RunSamples` enforces before calling the
finder — exactly four leptons, exactly two of charge `+1` and two of charge
`-1` — the finder emits exactly four candidates, so the selector always
returns an assignment for such events. -/
theorem c10_precondition_four (ch : List Int)
    (hlen : ch.length = 4) (hpos : ch.count 1 = 2) (hneg : ch.count (-1) = 2) :
    (findCandidates ch).length = 4 ∧
    ∀ m : Nat → Nat → ℚ, (selectBest m (findCandidates ch)).isSome := by
  have hall : ∀ x ∈ ch, x = 1 ∨ x = -1 := all_pm_of_count ch (by omega)
  match ch, hlen, hpos, hneg, hall with
  | [a, b, c, d], _, hpos, hneg, hall =>
    have ha := hall a (by simp)
    have hb := hall b (by simp)
    have hc := hall c (by simp)
    have hd := hall d (by simp)
    rcases ha with rfl | rfl <;> rcases hb with rfl | rfl <;> rcases hc with rfl | rfl <;>
      rcases hd with rfl | rfl <;>
      first
        | exact absurd hpos (by decide)
        | exact ⟨by decide, fun m => selectBest_isSome m (by decide)⟩

/-- Witness for C10: the event with charges `[+1, -1, +1, -1]`. -/
theorem c10_precondition_four_witness :
    (findCandidates [1, -1, 1, -1]).length = 4 ∧
    (selectBest (fun _ _ => (0 : ℚ)) (findCandidates [1, -1, 1, -1])).isSome := by
  have h := c10_precondition_four [1, -1, 1, -1] (by decide) (by decide) (by decide)
  exact ⟨h.1, h.2 (fun _ _ => (0 : ℚ))⟩
